import Mathlib

/-!
Shallow embedding of the message-parsing and typewriter-reveal core of the
`neural-core-assistant` repository.

Source files embedded:
* `src/utils/messageParser.ts` — `parseMessage`, driven by the regex
  `/```(\w+)?\n([\s\S]*?)```/g` in an `exec` loop.
* the `TypewriterMessage` component — incremental reveal state machine
  (`displayedContent`, `currentIndex`, `isPaused`, `isComplete`), its timed
  step and its click ("force complete") handler.

Strings are modelled as `List Char`.  The JavaScript regex semantics are
modelled explicitly: an opener is three backticks followed by a maximal run
of word characters and then a mandatory newline (backtracking over `(\w+)?`
cannot succeed otherwise, because every shorter split puts a word character
or a non-newline where `\n` is required); the lazy body ends at the first
subsequent occurrence of three backticks; the scan finds the leftmost match
and resumes after each match (`lastIndex`).
-/

namespace NeuralCore

/-- The backtick character, written via its code point. -/
def backtick : Char := Char.ofNat 96

/-- The fenced-code delimiter: three backticks. -/
def fence : List Char := [backtick, backtick, backtick]

/-- JavaScript regex `\w`: ASCII letters, digits and underscore. -/
def isWordChar (c : Char) : Bool := c.isAlphanum || c = '_'

/-- ASCII whitespace as recognised by JavaScript `String.prototype.trim`
(the Unicode space classes never occur in the concrete inputs considered). -/
def isJsSpace (c : Char) : Bool :=
  c = ' ' || c = '\t' || c = '\n' || c = '\r' || c = '\x0b' || c = '\x0c'

/-- Model of `String.prototype.trim`: strip leading and trailing
whitespace. -/
def trimList (s : List Char) : List Char :=
  ((s.dropWhile isJsSpace).reverse.dropWhile isJsSpace).reverse

/-- Greedy `\w*`: the maximal word-character run at the head, and the rest. -/
def takeWord : List Char → List Char × List Char
  | [] => ([], [])
  | c :: t =>
    if isWordChar c then
      match takeWord t with
      | (w, r) => (c :: w, r)
    else ([], c :: t)

/-- Try to match the opener `` ```(\w+)?\n `` at the head of `s`; return the
captured language tag (possibly empty) and the text after the newline. -/
def matchOpener (s : List Char) : Option (List Char × List Char) :=
  match s with
  | a :: b :: c :: t =>
    if a = backtick && b = backtick && c = backtick then
      match takeWord t with
      | (w, r) =>
        match r with
        | nl :: body => if nl = '\n' then some (w, body) else none
        | [] => none
    else none
  | _ => none

/-- Model of `String.prototype.indexOf` for the closing `` ``` ``: split
`s` at the first offset whose three-character window is the fence,
returning the part before the occurrence and the part after it. -/
def findClose : List Char → Option (List Char × List Char)
  | [] => none
  | c :: t =>
    if (c :: t).take 3 = fence then some ([], (c :: t).drop 3)
    else Option.map (fun p => (c :: p.1, p.2)) (findClose t)

/-- The leftmost full regex match in `s`:
`some (p, l, b, r)` means `s = p ++ fence ++ l ++ '\n' :: b ++ fence ++ r`
with `p` the text before the match, `l` the captured tag, `b` the raw body
and `r` the text after the match. -/
def findFence : List Char → Option (List Char × List Char × List Char × List Char)
  | [] => none
  | c :: t =>
    match matchOpener (c :: t) with
    | some (lang, body) =>
      match findClose body with
      | some (raw, rest) => some ([], lang, raw, rest)
      | none =>
        match findFence t with
        | some (p, l, b, r) => some (c :: p, l, b, r)
        | none => none
    | none =>
      match findFence t with
      | some (p, l, b, r) => some (c :: p, l, b, r)
      | none => none

/-- There is an occurrence of the three-backtick delimiter at offset `j`. -/
def tripleAt (s : List Char) (j : Nat) : Prop := (s.drop j).take 3 = fence

instance (s : List Char) (j : Nat) : Decidable (tripleAt s j) := by
  unfold tripleAt; infer_instance

theorem takeWord_append (s : List Char) : (takeWord s).1 ++ (takeWord s).2 = s := by
  induction s with
  | nil => rfl
  | cons c t ih =>
    unfold takeWord
    by_cases h : isWordChar c
    · simp only [h, if_pos]
      cases hw : takeWord t with
      | mk w r => simp only [List.cons_append, List.cons.injEq, true_and]
                  simpa [hw] using ih
    · simp [h]

theorem takeWord_mem (s : List Char) (c : Char) (hc : c ∈ (takeWord s).1) :
    isWordChar c = true := by
  induction s with
  | nil => simp [takeWord] at hc
  | cons a t ih =>
    unfold takeWord at hc
    by_cases h : isWordChar a
    · simp only [h, if_pos] at hc
      cases hw : takeWord t with
      | mk w r =>
        rw [hw] at hc
        simp only [List.mem_cons] at hc
        rcases hc with rfl | hc
        · exact h
        · exact ih (by simpa [hw] using hc)
    · simp [h] at hc

theorem matchOpener_eq (s w body : List Char)
    (h : matchOpener s = some (w, body)) :
    s = fence ++ (w ++ '\n' :: body) ∧ ∀ c ∈ w, isWordChar c = true := by
  unfold matchOpener at h
  cases s with
  | nil => cases h
  | cons a s1 =>
    cases s1 with
    | nil => cases h
    | cons b s2 =>
      cases s2 with
      | nil => cases h
      | cons c t =>
        dsimp only at h
        by_cases hg : (a = backtick && b = backtick && c = backtick) = true
        · rw [if_pos hg] at h
          cases hw : takeWord t with
          | mk w0 r0 =>
            rw [hw] at h
            cases r0 with
            | nil => dsimp only at h; cases h
            | cons nl body0 =>
              dsimp only at h
              by_cases hnl : nl = '\n'
              · rw [if_pos hnl] at h
                cases h
                simp only [Bool.and_eq_true, decide_eq_true_eq] at hg
                obtain ⟨⟨rfl, rfl⟩, rfl⟩ := hg
                constructor
                · have := takeWord_append t
                  rw [hw] at this
                  simp only [fence, List.cons_append, List.nil_append,
                    List.cons.injEq, true_and]
                  rw [← hnl, ← this]
                · intro x hx
                  exact takeWord_mem t x (by simpa [hw] using hx)
              · rw [if_neg hnl] at h; cases h
        · rw [if_neg hg] at h; cases h

theorem matchOpener_of_shape (w body : List Char)
    (hw : ∀ c ∈ w, isWordChar c = true) :
    matchOpener (fence ++ (w ++ '\n' :: body)) = some (w, body) := by
  have hword : takeWord (w ++ '\n' :: body) = (w, '\n' :: body) := by
    induction w with
    | nil => simp [takeWord, isWordChar]
    | cons c t ih =>
      have hc : isWordChar c = true := hw c (List.mem_cons_self c t)
      have ht : takeWord (t ++ '\n' :: body) = (t, '\n' :: body) :=
        ih (fun x hx => hw x (List.mem_cons_of_mem c hx))
      simp [takeWord, hc, ht]
  simp [matchOpener, fence, hword]

theorem findClose_unfold (c : Char) (t : List Char) :
    findClose (c :: t) =
      if (c :: t).take 3 = fence then some ([], (c :: t).drop 3)
      else Option.map (fun p => (c :: p.1, p.2)) (findClose t) := rfl

theorem findClose_eq (s : List Char) : ∀ b r, findClose s = some (b, r) →
    s = b ++ (fence ++ r) := by
  induction s with
  | nil => intro b r h; cases h
  | cons c t ih =>
    intro b r h
    rw [findClose_unfold] at h
    by_cases h3 : (c :: t).take 3 = fence
    · rw [if_pos h3] at h
      cases h
      rw [List.nil_append]
      conv_lhs => rw [← List.take_append_drop 3 (c :: t)]
      rw [h3]
    · rw [if_neg h3] at h
      cases hrec : findClose t with
      | none => rw [hrec] at h; cases h
      | some p =>
        cases p with
        | mk x0 y0 =>
          rw [hrec] at h
          cases h
          have hs := ih x0 _ hrec
          simp only [List.cons_append]
          rw [← hs]

theorem findClose_of_triple (s : List Char) (h : s.take 3 = fence) :
    findClose s = some ([], s.drop 3) := by
  cases s with
  | nil => cases h
  | cons c t =>
    rw [findClose_unfold, if_pos h]

theorem findClose_cons (a : Char) (t : List Char) (h : (a :: t).take 3 ≠ fence) :
    findClose (a :: t) = Option.map (fun p => (a :: p.1, p.2)) (findClose t) := by
  rw [findClose_unfold, if_neg h]

theorem findClose_first (s : List Char) : ∀ b r, findClose s = some (b, r) →
    ∀ j, j < b.length → ¬ tripleAt s j := by
  induction s with
  | nil => intro b r h; cases h
  | cons a t ih =>
    intro b r h
    by_cases h3 : (a :: t).take 3 = fence
    · rw [findClose_of_triple _ h3] at h
      cases h
      intro j hj
      simp at hj
    · rw [findClose_cons a t h3] at h
      cases hft : findClose t with
      | none => rw [hft] at h; cases h
      | some p =>
        cases p with
        | mk b0 r0 =>
          rw [hft] at h
          cases h
          intro j hj
          cases j with
          | zero =>
            intro htr
            exact h3 (by simpa [tripleAt] using htr)
          | succ j =>
            intro htr
            have hj0 : j < b0.length := by simpa using hj
            exact ih b0 r0 hft j hj0 (by simpa [tripleAt] using htr)

theorem tripleAt_append (x y : List Char) : tripleAt (x ++ (fence ++ y)) x.length := by
  unfold tripleAt
  rw [List.drop_left]
  simp [fence]

theorem findClose_of_decomp (b r : List Char)
    (hb : ∀ j, j < b.length → ¬ tripleAt (b ++ (fence ++ r)) j) :
    findClose (b ++ (fence ++ r)) = some (b, r) := by
  induction b with
  | nil =>
    have h3 : (([] : List Char) ++ (fence ++ r)).take 3 = fence := by simp [fence]
    rw [findClose_of_triple _ h3]
    simp [fence]
  | cons c b0 ih =>
    have h0 : ¬ tripleAt ((c :: b0) ++ (fence ++ r)) 0 := hb 0 (by simp)
    have h3 : ((c :: b0) ++ (fence ++ r)).take 3 ≠ fence := by
      simpa [tripleAt] using h0
    rw [List.cons_append, findClose_cons c (b0 ++ (fence ++ r)) (by
      simpa [List.cons_append] using h3)]
    rw [ih (fun j hj => by
      have := hb (j + 1) (by simpa using Nat.succ_lt_succ hj)
      simpa [tripleAt, List.cons_append] using this)]
    rfl

theorem findClose_none (s : List Char) (h : ∀ j, ¬ tripleAt s j) :
    findClose s = none := by
  cases hfc : findClose s with
  | none => rfl
  | some p =>
    cases p with
    | mk b r =>
      exfalso
      have hs := findClose_eq s b r hfc
      exact h b.length (by rw [hs]; exact tripleAt_append b r)

theorem matchOpener_nonword (c : Char) (t : List Char)
    (hc : isWordChar c = false) (hn : c ≠ '\n') :
    matchOpener (fence ++ c :: t) = none := by
  have hw : takeWord (c :: t) = ([], c :: t) := by
    unfold takeWord
    simp [hc]
  simp [matchOpener, fence, hw, hn]

theorem findFence_eq (s : List Char) : ∀ p l b r, findFence s = some (p, l, b, r) →
    s = p ++ (fence ++ (l ++ '\n' :: (b ++ (fence ++ r)))) ∧
      ∀ c ∈ l, isWordChar c = true := by
  induction s with
  | nil => intro p l b r h; cases h
  | cons c t ih =>
    intro p l b r h
    unfold findFence at h
    cases hmo : matchOpener (c :: t) with
    | some q =>
      rw [hmo] at h
      cases q with
      | mk lang body =>
        dsimp only at h
        cases hfc : findClose body with
        | some q2 =>
          rw [hfc] at h
          cases q2 with
          | mk raw rest =>
            dsimp only at h
            cases h
            have hop := matchOpener_eq _ _ _ hmo
            have hcl := findClose_eq _ _ _ hfc
            refine ⟨?_, hop.2⟩
            rw [List.nil_append, hop.1, hcl]
        | none =>
          rw [hfc] at h
          cases hft : findFence t with
          | none => rw [hft] at h; cases h
          | some q3 =>
            rw [hft] at h
            obtain ⟨p0, l0, b0, r0⟩ := q3
            dsimp only at h
            cases h
            have hrec := ih p0 _ _ _ hft
            refine ⟨?_, hrec.2⟩
            simp only [List.cons_append]
            rw [← hrec.1]
    | none =>
      rw [hmo] at h
      cases hft : findFence t with
      | none => rw [hft] at h; cases h
      | some q3 =>
        rw [hft] at h
        obtain ⟨p0, l0, b0, r0⟩ := q3
        dsimp only at h
        cases h
        have hrec := ih p0 _ _ _ hft
        refine ⟨?_, hrec.2⟩
        simp only [List.cons_append]
        rw [← hrec.1]

theorem findFence_rest_length (s p l b r : List Char)
    (h : findFence s = some (p, l, b, r)) : r.length < s.length := by
  have hs := (findFence_eq s p l b r h).1
  rw [hs]
  simp only [fence, List.length_append, List.length_cons]
  omega

/-- The `type` field of a `MessagePart` (`'text' | 'code'`). -/
inductive PartType
  | text
  | code
deriving DecidableEq

/-- One element of the array returned by `parseMessage`; `language` is
`none` exactly when the TypeScript object carries no `language` field. -/
structure MessagePart where
  type : PartType
  content : List Char
  language : Option (List Char)
deriving DecidableEq

/-- `parseMessage` from `src/utils/messageParser.ts`: run the regex scan,
emitting the text between matches verbatim, and each matched block as a
code part with trimmed body and captured (or defaulted) language. -/
def parseMessage (message : List Char) : List MessagePart :=
  match hm : findFence message with
  | none => if message = [] then [] else [⟨PartType.text, message, none⟩]
  | some (p, l, b, r) =>
    (if p = [] then [] else [⟨PartType.text, p, none⟩]) ++
      ⟨PartType.code, trimList b,
        some (if l = [] then "plaintext".toList else l)⟩ ::
        parseMessage r
termination_by message.length
decreasing_by
  exact findFence_rest_length message p l b r hm

/-- A segment of the scan that still remembers the raw matched text: either
a stretch of plain text, or a matched block's captured tag and untrimmed
body.  Used to state the round-trip property of `parseMessage`. -/
inductive RawSeg
  | text (content : List Char)
  | code (lang : List Char) (raw : List Char)
deriving DecidableEq

/-- The exact source text a `RawSeg` stands for: a text segment is its own
slice; a code segment is its full fence markup plus untrimmed body. -/
def rawSource : RawSeg → List Char
  | RawSeg.text t => t
  | RawSeg.code l raw => fence ++ (l ++ '\n' :: (raw ++ fence))

/-- How `parseMessage` presents a segment: text verbatim, code with the
body trimmed and the language defaulted to `"plaintext"` when no tag was
captured. -/
def render : RawSeg → MessagePart
  | RawSeg.text t => ⟨PartType.text, t, none⟩
  | RawSeg.code l raw =>
    ⟨PartType.code, trimList raw,
      some (if l = [] then "plaintext".toList else l)⟩

/-- The same scan as `parseMessage`, but keeping raw segments. -/
def parseRaw (message : List Char) : List RawSeg :=
  match hm : findFence message with
  | none => if message = [] then [] else [RawSeg.text message]
  | some (p, l, b, r) =>
    (if p = [] then [] else [RawSeg.text p]) ++
      RawSeg.code l b :: parseRaw r
termination_by message.length
decreasing_by
  exact findFence_rest_length message p l b r hm

theorem parseMessage_none (s : List Char) (h : findFence s = none) :
    parseMessage s = if s = [] then [] else [⟨PartType.text, s, none⟩] := by
  rw [parseMessage.eq_def, h]

theorem parseMessage_some (s p l b r : List Char)
    (h : findFence s = some (p, l, b, r)) :
    parseMessage s =
      (if p = [] then [] else [⟨PartType.text, p, none⟩]) ++
        ⟨PartType.code, trimList b,
          some (if l = [] then "plaintext".toList else l)⟩ ::
          parseMessage r := by
  rw [parseMessage.eq_def, h]

theorem parseRaw_none (s : List Char) (h : findFence s = none) :
    parseRaw s = if s = [] then [] else [RawSeg.text s] := by
  rw [parseRaw.eq_def, h]

theorem parseRaw_some (s p l b r : List Char)
    (h : findFence s = some (p, l, b, r)) :
    parseRaw s =
      (if p = [] then [] else [RawSeg.text p]) ++
        RawSeg.code l b :: parseRaw r := by
  rw [parseRaw.eq_def, h]

theorem parseMessage_renders (s : List Char) :
    parseMessage s = (parseRaw s).map render := by
  cases hm : findFence s with
  | none =>
    rw [parseMessage_none s hm, parseRaw_none s hm]
    by_cases hs : s = []
    · simp [hs]
    · simp [hs, render]
  | some q =>
    obtain ⟨p, l, b, r⟩ := q
    rw [parseMessage_some s p l b r hm, parseRaw_some s p l b r hm]
    rw [List.map_append, List.map_cons]
    rw [parseMessage_renders r]
    by_cases hp : p = []
    · simp [hp, render]
    · simp [hp, render]
termination_by s.length
decreasing_by
  exact findFence_rest_length s p l b r hm

theorem parseRaw_flatten (s : List Char) :
    ((parseRaw s).map rawSource).flatten = s := by
  cases hm : findFence s with
  | none =>
    rw [parseRaw_none s hm]
    by_cases hs : s = []
    · simp [hs]
    · simp [hs, rawSource]
  | some q =>
    obtain ⟨p, l, b, r⟩ := q
    rw [parseRaw_some s p l b r hm]
    rw [List.map_append, List.map_cons, List.flatten_append, List.flatten_cons]
    rw [parseRaw_flatten r]
    have hs := (findFence_eq s p l b r hm).1
    by_cases hp : p = []
    · subst hp
      simp only [reduceIte, List.map_nil, List.flatten_nil, List.nil_append]
      rw [hs]
      simp [rawSource, List.append_assoc]
    · rw [if_neg hp]
      simp only [List.map_cons, List.map_nil, List.flatten_cons,
        List.flatten_nil, List.append_nil]
      rw [hs]
      simp [rawSource, List.append_assoc]
termination_by s.length
decreasing_by
  exact findFence_rest_length s p l b r hm

/-- The `TypewriterMessage` component state: `displayedContent`,
`currentIndex`, `isPaused`, `isComplete`. -/
structure TWState where
  displayedContent : List Char
  currentIndex : Nat
  isPaused : Bool
  isComplete : Bool
deriving DecidableEq

/-- Initial component state (`''`, `0`, `false`, `false`). -/
def twInit : TWState := ⟨[], 0, false, false⟩

/-- One run of the `useEffect` body for content `content`:
if `currentIndex < content.length`, the scheduled timeout fires — when the
unrevealed remainder starts with three backticks and the remainder past
them contains another three-backtick occurrence (`indexOf('``' + '`', 3)`),
the whole block `codeBlock` is appended at once; otherwise up to three
characters are appended.  Otherwise the effect marks completion. -/
def twStep (content : List Char) (s : TWState) : TWState :=
  if s.currentIndex < content.length then
    if (content.drop s.currentIndex).take 3 = fence then
      match findClose ((content.drop s.currentIndex).drop 3) with
      | some (inner, _) =>
        { s with
          displayedContent :=
            s.displayedContent ++
              (content.drop s.currentIndex).take (inner.length + 6),
          currentIndex :=
            s.currentIndex +
              ((content.drop s.currentIndex).take (inner.length + 6)).length }
      | none =>
        { s with
          displayedContent :=
            s.displayedContent ++
              (content.drop s.currentIndex).take
                (min 3 (content.length - s.currentIndex)),
          currentIndex :=
            s.currentIndex + min 3 (content.length - s.currentIndex) }
    else
      { s with
        displayedContent :=
          s.displayedContent ++
            (content.drop s.currentIndex).take
              (min 3 (content.length - s.currentIndex)),
        currentIndex :=
          s.currentIndex + min 3 (content.length - s.currentIndex) }
  else
    { s with isComplete := true }

/-- The component's click handler (`handleClick`): force-complete. -/
def twClick (content : List Char) (s : TWState) : TWState :=
  if s.currentIndex < content.length then
    { s with
      isPaused := true,
      displayedContent := content,
      currentIndex := content.length }
  else s

/-- The state after `n` timed steps from the initial state. -/
def twTrace (content : List Char) (n : Nat) : TWState :=
  (twStep content)^[n] twInit

/-- The reveal cursor after `n` timed steps. -/
def twCursor (content : List Char) (n : Nat) : Nat :=
  (twTrace content n).currentIndex

/-- The states of one `TypewriterMessage` instance reachable from the
initial state by timed steps and clicks. -/
inductive Reaches (content : List Char) : TWState → Prop
  | init : Reaches content twInit
  | step {s : TWState} : Reaches content s → Reaches content (twStep content s)
  | click {s : TWState} : Reaches content s → Reaches content (twClick content s)

theorem take_min (l : List Char) (n : Nat) : l.take n = l.take (min n l.length) := by
  rcases Nat.le_total n l.length with h | h
  · rw [Nat.min_eq_left h]
  · rw [Nat.min_eq_right h, List.take_of_length_le h, List.take_length]

theorem twStep_char (content : List Char) (s : TWState)
    (h : s.currentIndex < content.length) :
    ∃ k, 1 ≤ k ∧ s.currentIndex + k ≤ content.length ∧
      twStep content s =
        { s with
          displayedContent :=
            s.displayedContent ++ (content.drop s.currentIndex).take k,
          currentIndex := s.currentIndex + k } := by
  have hrem : (content.drop s.currentIndex).length
      = content.length - s.currentIndex := List.length_drop ..
  unfold twStep
  rw [if_pos h]
  by_cases hf : (content.drop s.currentIndex).take 3 = fence
  · rw [if_pos hf]
    cases hfc : findClose ((content.drop s.currentIndex).drop 3) with
    | some q =>
      obtain ⟨inner, rest⟩ := q
      refine ⟨min (inner.length + 6) (content.length - s.currentIndex),
        ?_, ?_, ?_⟩
      · omega
      · omega
      · dsimp only
        rw [List.length_take,
          take_min (content.drop s.currentIndex) (inner.length + 6), hrem]
    | none =>
      exact ⟨min 3 (content.length - s.currentIndex), by omega, by omega, rfl⟩
  · rw [if_neg hf]
    exact ⟨min 3 (content.length - s.currentIndex), by omega, by omega, rfl⟩

theorem twStep_of_ge (content : List Char) (s : TWState)
    (h : content.length ≤ s.currentIndex) :
    twStep content s = { s with isComplete := true } := by
  unfold twStep
  rw [if_neg (by omega)]

theorem twStep_cursor_mono (content : List Char) (s : TWState) :
    s.currentIndex ≤ (twStep content s).currentIndex := by
  by_cases h : s.currentIndex < content.length
  · obtain ⟨k, -, -, hk⟩ := twStep_char content s h
    rw [hk]
    simp
  · rw [twStep_of_ge content s (by omega)]

theorem twStep_cursor_le (content : List Char) (s : TWState)
    (h : s.currentIndex ≤ content.length) :
    (twStep content s).currentIndex ≤ content.length := by
  by_cases hlt : s.currentIndex < content.length
  · obtain ⟨k, -, hle, hk⟩ := twStep_char content s hlt
    rw [hk]
    exact hle
  · rw [twStep_of_ge content s (by omega)]
    exact h

theorem twStep_cursor_strict (content : List Char) (s : TWState)
    (h : s.currentIndex < content.length) :
    s.currentIndex < (twStep content s).currentIndex := by
  obtain ⟨k, h1, -, hk⟩ := twStep_char content s h
  rw [hk]
  simp only []
  omega

theorem twStep_displayed (content : List Char) (s : TWState)
    (hd : s.displayedContent = content.take s.currentIndex) :
    (twStep content s).displayedContent
      = content.take (twStep content s).currentIndex := by
  by_cases h : s.currentIndex < content.length
  · obtain ⟨k, -, -, hk⟩ := twStep_char content s h
    rw [hk]
    simp only []
    rw [hd, List.take_add]
  · rw [twStep_of_ge content s (by omega)]
    exact hd

theorem twClick_cursor_mono (content : List Char) (s : TWState) :
    s.currentIndex ≤ (twClick content s).currentIndex := by
  unfold twClick
  by_cases h : s.currentIndex < content.length
  · rw [if_pos h]
    exact Nat.le_of_lt h
  · rw [if_neg h]

theorem twClick_cursor_le (content : List Char) (s : TWState)
    (h : s.currentIndex ≤ content.length) :
    (twClick content s).currentIndex ≤ content.length := by
  unfold twClick
  by_cases hlt : s.currentIndex < content.length
  · rw [if_pos hlt]
  · rw [if_neg hlt]
    exact h

theorem twClick_displayed (content : List Char) (s : TWState)
    (hd : s.displayedContent = content.take s.currentIndex) :
    (twClick content s).displayedContent
      = content.take (twClick content s).currentIndex := by
  unfold twClick
  by_cases hlt : s.currentIndex < content.length
  · rw [if_pos hlt]
    dsimp only
    rw [List.take_length]
  · rw [if_neg hlt]
    exact hd

/-- Claim C9: in every state of one `TypewriterMessage` instance reachable
via timed steps and force-complete, the cursor satisfies
`0 ≤ currentIndex ≤ length content` (the lower bound is inherent to `Nat`),
the displayed content is exactly the first `currentIndex` characters of the
full text, and neither a timed step nor a click ever decreases the cursor. -/
theorem c9_cursor_invariant (content : List Char) (s : TWState)
    (h : Reaches content s) :
    s.currentIndex ≤ content.length
      ∧ s.displayedContent = content.take s.currentIndex
      ∧ s.currentIndex ≤ (twStep content s).currentIndex
      ∧ s.currentIndex ≤ (twClick content s).currentIndex := by
  induction h with
  | init =>
    exact ⟨Nat.zero_le _, rfl, twStep_cursor_mono .., twClick_cursor_mono ..⟩
  | step _ ih =>
    exact ⟨twStep_cursor_le content _ ih.1, twStep_displayed content _ ih.2.1,
      twStep_cursor_mono .., twClick_cursor_mono ..⟩
  | click _ ih =>
    exact ⟨twClick_cursor_le content _ ih.1, twClick_displayed content _ ih.2.1,
      twStep_cursor_mono .., twClick_cursor_mono ..⟩

/-- Witness for C9 at a concrete reachable state. -/
theorem c9_cursor_invariant_witness :
    twInit.currentIndex ≤ ("ab".toList).length
      ∧ twInit.displayedContent = ("ab".toList).take twInit.currentIndex
      ∧ twInit.currentIndex ≤ (twStep ("ab".toList) twInit).currentIndex
      ∧ twInit.currentIndex ≤ (twClick ("ab".toList) twInit).currentIndex :=
  c9_cursor_invariant ("ab".toList) twInit Reaches.init

theorem twTrace_succ (content : List Char) (n : Nat) :
    twTrace content (n + 1) = twStep content (twTrace content n) :=
  Function.iterate_succ_apply' ..

theorem twTrace_cursor_le (content : List Char) (n : Nat) :
    (twTrace content n).currentIndex ≤ content.length := by
  induction n with
  | zero => exact Nat.zero_le _
  | succ n ih =>
    rw [twTrace_succ]
    exact twStep_cursor_le content _ ih

theorem twTrace_cursor_lower (content : List Char) (n : Nat) :
    min n content.length ≤ (twTrace content n).currentIndex := by
  induction n with
  | zero => omega
  | succ n ih =>
    rw [twTrace_succ]
    by_cases h : (twTrace content n).currentIndex < content.length
    · have := twStep_cursor_strict content _ h
      omega
    · have hle := twTrace_cursor_le content n
      have := twStep_cursor_mono content (twTrace content n)
      omega

theorem twTrace_complete_cursor (content : List Char) (n : Nat) :
    (twTrace content n).isComplete = true →
      content.length ≤ (twTrace content n).currentIndex := by
  induction n with
  | zero => intro h; cases h
  | succ n ih =>
    intro h
    rw [twTrace_succ] at h ⊢
    by_cases hlt : (twTrace content n).currentIndex < content.length
    · obtain ⟨k, -, -, hk⟩ := twStep_char content _ hlt
      rw [hk] at h
      exact absurd (ih h) (by omega)
    · rw [twStep_of_ge content _ (by omega)]
      dsimp only
      omega

theorem twTrace_stable (content : List Char) (n : Nat)
    (h : (twTrace content n).isComplete = true) :
    twTrace content (n + 1) = twTrace content n := by
  have hc := twTrace_complete_cursor content n h
  rw [twTrace_succ, twStep_of_ge content _ hc]
  cases hs : twTrace content n with
  | mk d i p c =>
    rw [hs] at h
    simp only at h
    rw [h]

theorem twTrace_stable_ge (content : List Char) (n m : Nat) (hnm : n ≤ m)
    (h : (twTrace content n).isComplete = true) :
    twTrace content m = twTrace content n := by
  induction m with
  | zero =>
    have : n = 0 := by omega
    rw [this]
  | succ m ih =>
    by_cases hm : n = m + 1
    · rw [hm]
    · have hle : n ≤ m := by omega
      have hstable := twTrace_stable content m (by rw [ih hle]; exact h)
      rw [hstable, ih hle]

theorem twTrace_complete_end (content : List Char) :
    (twTrace content (content.length + 1)).isComplete = true := by
  have h1 := twTrace_cursor_lower content content.length
  have h2 := twTrace_cursor_le content content.length
  have hc : content.length ≤ (twTrace content content.length).currentIndex := by
    omega
  rw [twTrace_succ, twStep_of_ge content _ hc]

theorem twTrace_flip_exists (content : List Char) (N : Nat) :
    (twTrace content N).isComplete = true →
      ∃ n, (twTrace content n).isComplete = false ∧
        (twTrace content (n + 1)).isComplete = true := by
  induction N with
  | zero => intro h; cases h
  | succ N ih =>
    intro h
    by_cases hN : (twTrace content N).isComplete = true
    · exact ih hN
    · exact ⟨N, by simpa using hN, h⟩

/-- Claim C10: force-complete (the click handler) immediately sets the
visible prefix to the full text and the cursor to `length content`; it is
idempotent; triggering it after completion is a no-op; along the timed
trace, `isComplete` flips from `false` to `true` at exactly one step (the
completion notification fires exactly once), and from any completed state
no further step changes the state (no further steps are scheduled). -/
theorem c10_force_complete (content : List Char) :
    (∀ s : TWState, s.currentIndex < content.length →
        (twClick content s).displayedContent = content ∧
          (twClick content s).currentIndex = content.length)
      ∧ (∀ s : TWState, twClick content (twClick content s) = twClick content s)
      ∧ (∀ s : TWState, content.length ≤ s.currentIndex → twClick content s = s)
      ∧ (∃! n, (twTrace content n).isComplete = false ∧
            (twTrace content (n + 1)).isComplete = true)
      ∧ (∀ n m : Nat, n ≤ m → (twTrace content n).isComplete = true →
            twTrace content m = twTrace content n) := by
  refine ⟨?_, ?_, ?_, ?_, ?_⟩
  · intro s h
    unfold twClick
    rw [if_pos h]
    exact ⟨rfl, rfl⟩
  · intro s
    by_cases h : s.currentIndex < content.length
    · unfold twClick
      rw [if_pos h]
      dsimp only
      rw [if_neg (lt_irrefl content.length)]
    · unfold twClick
      rw [if_neg h, if_neg h]
  · intro s h
    unfold twClick
    rw [if_neg (by omega)]
  · obtain ⟨n, hn⟩ := twTrace_flip_exists content (content.length + 1)
      (twTrace_complete_end content)
    refine ⟨n, hn, ?_⟩
    intro y hy
    rcases Nat.lt_trichotomy y n with hlt | heq | hgt
    · exfalso
      have hstab := twTrace_stable_ge content (y + 1) n (by omega) hy.2
      have h1 := hn.1
      rw [hstab, hy.2] at h1
      cases h1
    · exact heq
    · exfalso
      have hstab := twTrace_stable_ge content (n + 1) y (by omega) hn.2
      have h1 := hy.1
      rw [hstab, hn.2] at h1
      cases h1
  · intro n m hnm h
    exact twTrace_stable_ge content n m hnm h

/-- Witness for C10 at concrete content and states. -/
theorem c10_force_complete_witness :
    ((twClick ("abcd".toList) twInit).displayedContent = "abcd".toList ∧
        (twClick ("abcd".toList) twInit).currentIndex = ("abcd".toList).length)
      ∧ twClick ("abcd".toList) ⟨"abcd".toList, 4, true, false⟩
          = ⟨"abcd".toList, 4, true, false⟩
      ∧ twTrace ("abcd".toList) 5 = twTrace ("abcd".toList) 3 :=
  ⟨(c10_force_complete ("abcd".toList)).1 twInit (by decide),
   (c10_force_complete ("abcd".toList)).2.2.1 _ (by decide),
   (c10_force_complete ("abcd".toList)).2.2.2.2 3 5 (by decide) (by decide)⟩

theorem twStep_cursor_nofence (content : List Char) (s : TWState)
    (h : s.currentIndex < content.length)
    (hf : (content.drop s.currentIndex).take 3 ≠ fence) :
    (twStep content s).currentIndex =
      s.currentIndex + min 3 (content.length - s.currentIndex) := by
  unfold twStep
  rw [if_pos h, if_neg hf]

theorem twStep_cursor_noclose (content : List Char) (s : TWState)
    (h : s.currentIndex < content.length)
    (hf : (content.drop s.currentIndex).take 3 = fence)
    (hc : findClose ((content.drop s.currentIndex).drop 3) = none) :
    (twStep content s).currentIndex =
      s.currentIndex + min 3 (content.length - s.currentIndex) := by
  unfold twStep
  rw [if_pos h, if_pos hf, hc]

theorem twStep_cursor_fence (content : List Char) (s : TWState)
    (inner rest : List Char)
    (h : s.currentIndex < content.length)
    (hf : (content.drop s.currentIndex).take 3 = fence)
    (hc : findClose ((content.drop s.currentIndex).drop 3) = some (inner, rest)) :
    (twStep content s).currentIndex =
      s.currentIndex + min (inner.length + 6)
        (content.length - s.currentIndex) := by
  unfold twStep
  rw [if_pos h, if_pos hf, hc]
  dsimp only
  rw [List.length_take, List.length_drop]

/-- Claim C3: when the cursor has not reached the end, one reveal step
either jumps the whole fenced block — when the unrevealed remainder starts
with three backticks and a closing three-backtick occurrence exists at
offset at least 3, the first one ending the block — or advances by exactly
`min 3` of the remaining length. -/
theorem c3_step_behavior (content : List Char) (s : TWState)
    (h : s.currentIndex < content.length) :
    (∀ inner rest : List Char,
        (content.drop s.currentIndex).take 3 = fence →
        (content.drop s.currentIndex).drop 3 = inner ++ (fence ++ rest) →
        (∀ j, j < inner.length →
          ¬ tripleAt ((content.drop s.currentIndex).drop 3) j) →
        (twStep content s).currentIndex
          = s.currentIndex + (inner.length + 6))
      ∧ (((content.drop s.currentIndex).take 3 = fence →
            ∀ j, ¬ tripleAt ((content.drop s.currentIndex).drop 3) j) →
          (twStep content s).currentIndex
            = s.currentIndex + min 3 (content.length - s.currentIndex)) := by
  constructor
  · intro inner rest hf hd hfirst
    have hc : findClose ((content.drop s.currentIndex).drop 3)
        = some (inner, rest) := by
      rw [hd]
      exact findClose_of_decomp inner rest (fun j hj => by
        have := hfirst j hj
        rw [hd] at this
        exact this)
    have hstep := twStep_cursor_fence content s inner rest h hf hc
    have hr3 : 3 ≤ content.length - s.currentIndex := by
      have h2 := congrArg List.length hf
      rw [List.length_take] at h2
      simp only [List.length_drop, fence, List.length_cons, List.length_nil] at h2
      omega
    have hdlen := congrArg List.length hd
    simp only [List.length_drop, List.length_append, fence, List.length_cons,
      List.length_nil] at hdlen
    have hge6 : inner.length + 6 ≤ content.length - s.currentIndex := by omega
    rw [hstep, Nat.min_eq_left hge6]
  · intro hno
    by_cases hf : (content.drop s.currentIndex).take 3 = fence
    · exact twStep_cursor_noclose content s h hf
        (findClose_none _ (hno hf))
    · exact twStep_cursor_nofence content s h hf

/-- Witness for C3 at concrete content and state. -/
theorem c3_step_behavior_witness :
    twInit.currentIndex < ("ab".toList).length ∧
      (twStep ("ab".toList) twInit).currentIndex
        = twInit.currentIndex
            + min 3 (("ab".toList).length - twInit.currentIndex) :=
  ⟨by decide,
   (c3_step_behavior ("ab".toList) twInit (by decide)).2
     (fun hf => absurd hf (by decide))⟩

theorem no_triple_of_no_backtick (m z : List Char)
    (hm : ∀ c ∈ m, c ≠ backtick) (j : Nat) (hj : j < m.length) :
    ¬ tripleAt (m ++ z) j := by
  intro ht
  unfold tripleAt at ht
  rw [List.drop_append_of_le_length (Nat.le_of_lt hj),
    List.drop_eq_getElem_cons hj, List.cons_append] at ht
  have ht2 : m[j] :: (m.drop (j + 1) ++ z).take 2 = fence := ht
  unfold fence at ht2
  injection ht2 with h1 h2
  exact hm _ (List.getElem_mem hj) h1

/-- Claim C1 (amended): fence atomicity holds whenever the stepping is
aligned with the fence opener — when the full text is backtick-free text
`pre` of length divisible by 3, then a fenced region delimited by two
three-backtick fences around a backtick-free interior `mid`, then anything:
no reachable cursor ever lies strictly inside the fenced region; the
cursor either stops at or before the opener or jumps past the closing
delimiter in one step.  (As stated for arbitrary `fullText` the claim
fails: the 3-character stepping can cross an unaligned opener and then
reveal the block incrementally — see the counterexample.) -/
theorem c1_fence_atomic_aligned (pre mid post : List Char) (n : Nat)
    (hpre : ∀ c ∈ pre, c ≠ backtick) (hmid : ∀ c ∈ mid, c ≠ backtick)
    (halign : pre.length % 3 = 0) :
    twCursor (pre ++ (fence ++ (mid ++ (fence ++ post)))) n ≤ pre.length
      ∨ pre.length + mid.length + 6
          ≤ twCursor (pre ++ (fence ++ (mid ++ (fence ++ post)))) n := by
  have hlen : (pre ++ (fence ++ (mid ++ (fence ++ post)))).length
      = pre.length + mid.length + post.length + 6 := by
    simp only [List.length_append, fence, List.length_cons, List.length_nil]
    omega
  suffices H : ∀ k,
      (twCursor (pre ++ (fence ++ (mid ++ (fence ++ post)))) k ≤ pre.length
          ∧ twCursor (pre ++ (fence ++ (mid ++ (fence ++ post)))) k % 3 = 0)
        ∨ pre.length + mid.length + 6
            ≤ twCursor (pre ++ (fence ++ (mid ++ (fence ++ post)))) k by
    rcases H n with hk | hk
    · exact Or.inl hk.1
    · exact Or.inr hk
  intro k
  induction k with
  | zero =>
    have h0 : twCursor (pre ++ (fence ++ (mid ++ (fence ++ post)))) 0 = 0 := rfl
    rw [h0]
    exact Or.inl ⟨Nat.zero_le _, rfl⟩
  | succ k ih =>
    have hcur : twCursor (pre ++ (fence ++ (mid ++ (fence ++ post)))) (k + 1)
        = (twStep (pre ++ (fence ++ (mid ++ (fence ++ post))))
            (twTrace (pre ++ (fence ++ (mid ++ (fence ++ post)))) k)).currentIndex := by
      unfold twCursor
      rw [twTrace_succ]
    have hkc : twCursor (pre ++ (fence ++ (mid ++ (fence ++ post)))) k
        = (twTrace (pre ++ (fence ++ (mid ++ (fence ++ post)))) k).currentIndex := rfl
    rcases ih with ⟨hle, hmod⟩ | hge
    · by_cases hi : twCursor (pre ++ (fence ++ (mid ++ (fence ++ post)))) k
          < pre.length
      · -- strictly inside the backtick-free preamble: a plain 3-step
        have hltlen : (twTrace (pre ++ (fence ++ (mid ++ (fence ++ post)))) k).currentIndex
            < (pre ++ (fence ++ (mid ++ (fence ++ post)))).length := by
          rw [← hkc]
          omega
        have hnf : ((pre ++ (fence ++ (mid ++ (fence ++ post)))).drop
            (twTrace (pre ++ (fence ++ (mid ++ (fence ++ post)))) k).currentIndex).take 3
              ≠ fence := by
          have := no_triple_of_no_backtick pre (fence ++ (mid ++ (fence ++ post)))
            hpre (twTrace (pre ++ (fence ++ (mid ++ (fence ++ post)))) k).currentIndex
            (by rw [← hkc]; omega)
          simpa [tripleAt] using this
        have hstep := twStep_cursor_nofence
          (pre ++ (fence ++ (mid ++ (fence ++ post)))) _ hltlen hnf
        rw [hcur, hstep, ← hkc]
        left
        constructor
        · omega
        · omega
      · -- the cursor sits exactly on the opener: atomic jump
        have hieq : twCursor (pre ++ (fence ++ (mid ++ (fence ++ post)))) k
            = pre.length := by omega
        have hdropPre : (pre ++ (fence ++ (mid ++ (fence ++ post)))).drop pre.length
            = fence ++ (mid ++ (fence ++ post)) := List.drop_left ..
        have hltlen : (twTrace (pre ++ (fence ++ (mid ++ (fence ++ post)))) k).currentIndex
            < (pre ++ (fence ++ (mid ++ (fence ++ post)))).length := by
          rw [← hkc]
          omega
        have hf : ((pre ++ (fence ++ (mid ++ (fence ++ post)))).drop
            (twTrace (pre ++ (fence ++ (mid ++ (fence ++ post)))) k).currentIndex).take 3
              = fence := by
          rw [← hkc, hieq, hdropPre]
          rw [show (3 : Nat) = fence.length from rfl, List.take_left]
        have hd3 : ((pre ++ (fence ++ (mid ++ (fence ++ post)))).drop
            (twTrace (pre ++ (fence ++ (mid ++ (fence ++ post)))) k).currentIndex).drop 3
              = mid ++ (fence ++ post) := by
          rw [← hkc, hieq, hdropPre]
          rw [show (3 : Nat) = fence.length from rfl, List.drop_left]
        have hc : findClose (((pre ++ (fence ++ (mid ++ (fence ++ post)))).drop
            (twTrace (pre ++ (fence ++ (mid ++ (fence ++ post)))) k).currentIndex).drop 3)
              = some (mid, post) := by
          rw [hd3]
          exact findClose_of_decomp mid post
            (fun j hj => no_triple_of_no_backtick mid (fence ++ post) hmid j hj)
        have hstep := twStep_cursor_fence
          (pre ++ (fence ++ (mid ++ (fence ++ post)))) _ mid post hltlen hf hc
        rw [hcur, hstep, ← hkc, hieq]
        right
        have hminval : min (mid.length + 6)
            ((pre ++ (fence ++ (mid ++ (fence ++ post)))).length - pre.length)
              = mid.length + 6 := by
          rw [hlen]
          omega
        rw [hminval]
        omega
    · -- already past the fenced region: the cursor never decreases
      right
      have hmono := twStep_cursor_mono (pre ++ (fence ++ (mid ++ (fence ++ post))))
        (twTrace (pre ++ (fence ++ (mid ++ (fence ++ post)))) k)
      rw [hcur]
      rw [hkc] at hge
      omega

/-- Witness for the amended C1 at concrete aligned content. -/
theorem c1_fence_atomic_aligned_witness :
    twCursor ("abc".toList ++ (fence ++ ("x\n".toList ++ (fence ++ "tail".toList)))) 2
        ≤ ("abc".toList).length
      ∨ ("abc".toList).length + ("x\n".toList).length + 6
          ≤ twCursor ("abc".toList ++ (fence ++ ("x\n".toList
              ++ (fence ++ "tail".toList)))) 2 :=
  c1_fence_atomic_aligned ("abc".toList) ("x\n".toList) ("tail".toList) 2
    (by decide) (by decide) (by decide)

/-- Counterexample to Claim C1 as stated: in `"ab```x\n```"` the opener at
offset 2 has its closing delimiter inside the full text (`findClose` past
the opener finds `"x\n"` before the closer), yet after two timed steps the
cursor is 6: the visible prefix (the first six characters) contains the
opener in full but stops strictly inside the fenced block — it neither
excludes the fence (cursor ≤ 2) nor includes it through the closing
delimiter (cursor ≥ 2 + 6 + 2). -/
theorem c1_counterexample :
    twCursor ("ab```x\n```".toList) 2 = 6
      ∧ tripleAt ("ab```x\n```".toList) 2
      ∧ findClose (("ab```x\n```".toList).drop 5) = some ("x\n".toList, [])
      ∧ ¬ (twCursor ("ab```x\n```".toList) 2 ≤ 2
            ∨ 2 + 6 + ("x\n".toList).length
                ≤ twCursor ("ab```x\n```".toList) 2) := by
  refine ⟨by decide, by decide, by decide, by decide⟩

theorem findFence_first (s : List Char) : ∀ p l b r, findFence s = some (p, l, b, r) →
    ∀ j, j < b.length → ¬ tripleAt (b ++ (fence ++ r)) j := by
  induction s with
  | nil => intro p l b r h; cases h
  | cons c t ih =>
    intro p l b r h
    unfold findFence at h
    cases hmo : matchOpener (c :: t) with
    | some q =>
      rw [hmo] at h
      obtain ⟨lang, body⟩ := q
      dsimp only at h
      cases hfc : findClose body with
      | some q2 =>
        rw [hfc] at h
        obtain ⟨raw, rest⟩ := q2
        dsimp only at h
        cases h
        intro j hj
        have hbody := findClose_eq body _ _ hfc
        have hfirst := findClose_first body _ _ hfc j hj
        rw [hbody] at hfirst
        exact hfirst
      | none =>
        rw [hfc] at h
        cases hft : findFence t with
        | none => rw [hft] at h; cases h
        | some q3 =>
          rw [hft] at h
          obtain ⟨p0, l0, b0, r0⟩ := q3
          dsimp only at h
          cases h
          exact ih p0 _ _ _ hft
    | none =>
      rw [hmo] at h
      cases hft : findFence t with
      | none => rw [hft] at h; cases h
      | some q3 =>
        rw [hft] at h
        obtain ⟨p0, l0, b0, r0⟩ := q3
        dsimp only at h
        cases h
        exact ih p0 _ _ _ hft

theorem parse_ex_mixed :
    parseMessage ("Hi\n```python\nprint(1)\n```\nBye".toList)
      = [⟨PartType.text, "Hi\n".toList, none⟩,
         ⟨PartType.code, "print(1)".toList, some ("python".toList)⟩,
         ⟨PartType.text, "\nBye".toList, none⟩] := by
  have h1 : findFence ("Hi\n```python\nprint(1)\n```\nBye".toList)
      = some ("Hi\n".toList, "python".toList, "print(1)\n".toList,
          "\nBye".toList) := by decide
  have h2 : findFence ("\nBye".toList) = none := by decide
  rw [parseMessage_some _ _ _ _ _ h1, parseMessage_none _ h2]
  decide

theorem parse_ex_lang :
    parseMessage ("```\nhello\n```".toList)
      = [⟨PartType.code, "hello".toList, some ("plaintext".toList)⟩] := by
  have h1 : findFence ("```\nhello\n```".toList)
      = some ([], [], "hello\n".toList, []) := by decide
  have h2 : findFence ([] : List Char) = none := by decide
  rw [parseMessage_some _ _ _ _ _ h1, parseMessage_none _ h2]
  decide

theorem parse_ex_unterminated :
    parseMessage ("before ```js\nconst x = 1;".toList)
      = [⟨PartType.text, "before ```js\nconst x = 1;".toList, none⟩] := by
  have h1 : findFence ("before ```js\nconst x = 1;".toList) = none := by decide
  rw [parseMessage_none _ h1]
  decide

theorem parse_ex_empty : parseMessage ([] : List Char) = [] := by
  have h1 : findFence ([] : List Char) = none := by decide
  rw [parseMessage_none _ h1]
  decide

theorem parse_ex_emptycode :
    parseMessage ("```\n\n```".toList)
      = [⟨PartType.code, [], some ("plaintext".toList)⟩] := by
  have h1 : findFence ("```\n\n```".toList)
      = some ([], [], "\n".toList, []) := by decide
  have h2 : findFence ([] : List Char) = none := by decide
  rw [parseMessage_some _ _ _ _ _ h1, parseMessage_none _ h2]
  decide

theorem parse_ex_single :
    parseMessage ("x".toList) = [⟨PartType.text, "x".toList, none⟩] := by
  have h1 : findFence ("x".toList) = none := by decide
  rw [parseMessage_none _ h1]
  decide

/-- Claim C2: round trip.  `parseMessage` is the rendering (Text verbatim,
Code trimmed, language defaulted) of the raw segmentation of the input,
and concatenating, in order, the raw segments' source text — Text slices
byte-exact, matched blocks as their full fence markup plus untrimmed inner
text — reconstructs the input exactly. -/
theorem c2_roundtrip (s : List Char) :
    parseMessage s = (parseRaw s).map render
      ∧ ((parseRaw s).map rawSource).flatten = s :=
  ⟨parseMessage_renders s, parseRaw_flatten s⟩

/-- Claim C4: a Code segment parsed from any prefix `p` of a string arises
only from a complete fenced block — opener, tag, newline, body and closing
delimiter — lying entirely within `p`; its content is the trimmed body and
its language the captured or defaulted tag.  Partially revealed fence text
therefore only ever sits inside Text segments. -/
theorem c4_code_complete (s p q : List Char) (hpq : p ++ q = s)
    (part : MessagePart) (hin : part ∈ parseMessage p)
    (hcode : part.type = PartType.code) :
    ∃ A l raw B, p = A ++ (fence ++ (l ++ '\n' :: (raw ++ (fence ++ B))))
      ∧ part.content = trimList raw
      ∧ part.language = some (if l = [] then "plaintext".toList else l) := by
  rw [parseMessage_renders] at hin
  obtain ⟨seg, hseg, hrend⟩ := List.mem_map.mp hin
  cases seg with
  | text t =>
    rw [← hrend] at hcode
    cases hcode
  | code l raw =>
    obtain ⟨L1, L2, hL⟩ := List.append_of_mem hseg
    have hflat := parseRaw_flatten p
    rw [hL, List.map_append, List.map_cons, List.flatten_append,
      List.flatten_cons] at hflat
    refine ⟨(L1.map rawSource).flatten, l, raw, (L2.map rawSource).flatten,
      ?_, ?_, ?_⟩
    · rw [← hflat]
      simp [rawSource, List.append_assoc]
    · rw [← hrend]
      rfl
    · rw [← hrend]
      rfl

/-- Witness for C4 at a concrete prefix and Code segment. -/
theorem c4_code_complete_witness :
    ∃ A l raw B, "```\nhello\n```".toList
        = A ++ (fence ++ (l ++ '\n' :: (raw ++ (fence ++ B))))
      ∧ (⟨PartType.code, "hello".toList, some ("plaintext".toList)⟩
          : MessagePart).content = trimList raw
      ∧ (⟨PartType.code, "hello".toList, some ("plaintext".toList)⟩
          : MessagePart).language
            = some (if l = [] then "plaintext".toList else l) :=
  c4_code_complete ("```\nhello\n```".toList) ("```\nhello\n```".toList) []
    (List.append_nil _)
    ⟨PartType.code, "hello".toList, some ("plaintext".toList)⟩
    (by rw [parse_ex_lang]; exact List.mem_singleton_self _) rfl

theorem tripleAt_le (s : List Char) (j : Nat) (h : tripleAt s j) :
    j + 3 ≤ s.length := by
  unfold tripleAt at h
  have hlen := congrArg List.length h
  simp only [List.length_take, List.length_drop, fence, List.length_cons,
    List.length_nil] at hlen
  omega

theorem tripleAt_append_left (u z : List Char) (j : Nat) (h : tripleAt u j) :
    tripleAt (u ++ z) j := by
  have h3 := tripleAt_le u j h
  unfold tripleAt at h ⊢
  rw [List.drop_append_of_le_length (by omega)]
  rw [List.take_append_of_le_length (by rw [List.length_drop]; omega)]
  exact h

theorem tripleAt_drop (s : List Char) (e j : Nat) :
    tripleAt (s.drop e) j ↔ tripleAt s (e + j) := by
  unfold tripleAt
  rw [List.drop_drop]

/-- Is some suffix position of `s` a fence opener whose body has no
closing delimiter within `s`?  Mirrors scanning every start position the
way the regex engine would. -/
def hasDangling : List Char → Bool
  | [] => false
  | c :: t =>
    (match matchOpener (c :: t) with
      | some (_, body) => (findClose body).isNone
      | none => false) || hasDangling t

theorem hasDangling_cons (c : Char) (t : List Char) :
    hasDangling (c :: t)
      = ((match matchOpener (c :: t) with
          | some (_, body) => (findClose body).isNone
          | none => false) || hasDangling t) := rfl

theorem hasDangling_drop (u : List Char) (k : Nat)
    (h : hasDangling u = false) : hasDangling (u.drop k) = false := by
  induction u generalizing k with
  | nil => rw [List.drop_nil]; rfl
  | cons c t ih =>
    cases k with
    | zero => exact h
    | succ k =>
      rw [hasDangling_cons, Bool.or_eq_false_iff] at h
      exact ih k h.2

theorem hasDangling_spec (u : List Char) (h : hasDangling u = false) :
    ∀ j w body, matchOpener (u.drop j) = some (w, body) →
      findClose body ≠ none := by
  induction u with
  | nil =>
    intro j w body hmo
    rw [List.drop_nil] at hmo
    cases hmo
  | cons c t ih =>
    intro j w body hmo
    rw [hasDangling_cons, Bool.or_eq_false_iff] at h
    cases j with
    | zero =>
      rw [List.drop_zero] at hmo
      have h0 := h.1
      rw [hmo] at h0
      dsimp only at h0
      intro he
      rw [he] at h0
      simp at h0
    | succ j =>
      exact ih h.2 j w body hmo

/-- Claim C5 (amended): for every input of the form
`a ++ "```" ++ b` in which no closing three-backtick occurrence lies after
the opener and every fence opener inside `a` has a matching closing
delimiter (`hasDangling a = false`), `parseMessage` emits no Code segment
for that opener: the parse ends with a Text segment whose content is a
suffix of `a` followed by the opening backticks and everything after them,
up to end of string.  In particular the concrete unterminated example is a
single Text segment equal to the whole input.  (The second condition is
forced: when an earlier opener is unterminated, the designated backticks
are consumed as that earlier fence's closing delimiter — see the
counterexample.) -/
theorem c5_unterminated (a b : List Char)
    (h1 : ∀ j, j < (a ++ (fence ++ b)).length → a.length < j →
        ¬ tripleAt (a ++ (fence ++ b)) j)
    (h2 : hasDangling a = false) :
    (∃ L t t0, t0 ++ t = a ∧
        parseMessage (a ++ (fence ++ b))
          = L ++ [⟨PartType.text, t ++ (fence ++ b), none⟩])
      ∧ parseMessage ("before ```js\nconst x = 1;".toList)
          = [⟨PartType.text, "before ```js\nconst x = 1;".toList, none⟩] := by
  refine ⟨?_, parse_ex_unterminated⟩
  have h1u : ∀ j, a.length < j → ¬ tripleAt (a ++ (fence ++ b)) j := by
    intro j hj ht
    exact h1 j (by have := tripleAt_le _ j ht; omega) hj ht
  cases hff : findFence (a ++ (fence ++ b)) with
  | none =>
    refine ⟨[], a, [], rfl, ?_⟩
    rw [parseMessage_none _ hff, if_neg ?hne]
    case hne =>
      intro he
      have hlen := congrArg List.length he
      simp [fence] at hlen
    rw [List.nil_append]
  | some q =>
    obtain ⟨p, l, bb, r⟩ := q
    have hsd := findFence_eq _ p l bb r hff
    have hs := hsd.1
    have hwords := hsd.2
    have hfst := findFence_first _ p l bb r hff
    have hs2 : a ++ (fence ++ b)
        = (p ++ (fence ++ (l ++ '\n' :: bb))) ++ (fence ++ r) := by
      rw [hs]
      simp [List.append_assoc]
    have ho2 : tripleAt (a ++ (fence ++ b))
        (p ++ (fence ++ (l ++ '\n' :: bb))).length := by
      rw [hs2]
      exact tripleAt_append _ _
    have hxlen : (p ++ (fence ++ (l ++ '\n' :: bb))).length
        = p.length + l.length + bb.length + 4 := by
      simp only [List.length_append, fence, List.length_cons, List.length_nil]
      omega
    have hcj : p.length + l.length + bb.length + 4 ≤ a.length := by
      by_contra hgt
      exact h1u _ (by omega) (hxlen ▸ ho2)
    by_cases hce : p.length + l.length + bb.length + 7 ≤ a.length
    · -- the whole match, closing delimiter included, lies within `a`
      have hdropA : (a ++ (fence ++ b)).drop (p.length + l.length + bb.length + 7)
          = a.drop (p.length + l.length + bb.length + 7) ++ (fence ++ b) :=
        List.drop_append_of_le_length (by omega)
      have hdropE : (a ++ (fence ++ b)).drop (p.length + l.length + bb.length + 7)
          = r := by
        have hsE : a ++ (fence ++ b)
            = (p ++ (fence ++ (l ++ '\n' :: (bb ++ fence)))) ++ r := by
          rw [hs]
          simp [List.append_assoc]
        have hlen2 : (p ++ (fence ++ (l ++ '\n' :: (bb ++ fence)))).length
            = p.length + l.length + bb.length + 7 := by
          simp only [List.length_append, fence, List.length_cons, List.length_nil]
          omega
        rw [hsE, ← hlen2, List.drop_left]
      have hr : r = a.drop (p.length + l.length + bb.length + 7) ++ (fence ++ b) := by
        rw [← hdropE, hdropA]
      have h1r : ∀ j,
          j < ((a.drop (p.length + l.length + bb.length + 7)) ++ (fence ++ b)).length →
          (a.drop (p.length + l.length + bb.length + 7)).length < j →
          ¬ tripleAt ((a.drop (p.length + l.length + bb.length + 7)) ++ (fence ++ b)) j := by
        intro j hjlen hj ht
        rw [List.length_drop] at hj
        have ht2 : tripleAt ((a ++ (fence ++ b)).drop
            (p.length + l.length + bb.length + 7)) j := by
          rw [hdropA]
          exact ht
        rw [tripleAt_drop] at ht2
        exact h1u _ (by omega) ht2
      have h2r : hasDangling (a.drop (p.length + l.length + bb.length + 7)) = false :=
        hasDangling_drop a _ h2
      obtain ⟨L0, t, t0, ht0, hparse⟩ :=
        (c5_unterminated (a.drop (p.length + l.length + bb.length + 7)) b h1r h2r).1
      refine ⟨(if p = [] then [] else [⟨PartType.text, p, none⟩]) ++
          ⟨PartType.code, trimList bb,
            some (if l = [] then "plaintext".toList else l)⟩ :: L0,
        t, a.take (p.length + l.length + bb.length + 7) ++ t0, ?_, ?_⟩
      · rw [List.append_assoc, ht0, List.take_append_drop]
      · rw [parseMessage_some _ p l bb r hff, hr, hparse]
        simp [List.append_assoc]
    · -- otherwise the closing delimiter would overlap the designated
      -- opener, so the opener of this match is a dangling opener of `a`
      exfalso
      have hopLe : p.length + l.length + 4 ≤ a.length := by omega
      have hbody : a.drop (p.length + l.length + 4) ++ (fence ++ b)
          = bb ++ (fence ++ r) := by
        have e1 : (a ++ (fence ++ b)).drop (p.length + l.length + 4)
            = a.drop (p.length + l.length + 4) ++ (fence ++ b) :=
          List.drop_append_of_le_length hopLe
        have e2 : (a ++ (fence ++ b)).drop (p.length + l.length + 4)
            = bb ++ (fence ++ r) := by
          have hsY : a ++ (fence ++ b)
              = (p ++ (fence ++ (l ++ ['\n']))) ++ (bb ++ (fence ++ r)) := by
            rw [hs]
            simp [List.append_assoc]
          have hlen3 : (p ++ (fence ++ (l ++ ['\n']))).length
              = p.length + l.length + 4 := by
            simp only [List.length_append, fence, List.length_cons,
              List.length_nil]
            omega
          rw [hsY, ← hlen3, List.drop_left]
        rw [← e1, e2]
      have hap : a.drop p.length
          = fence ++ (l ++ '\n' :: a.drop (p.length + l.length + 4)) := by
        have e1 : (a ++ (fence ++ b)).drop p.length
            = a.drop p.length ++ (fence ++ b) :=
          List.drop_append_of_le_length (by omega)
        have e2 : (a ++ (fence ++ b)).drop p.length
            = fence ++ (l ++ '\n' :: (bb ++ (fence ++ r))) := by
          rw [hs, List.drop_left]
        have e3 : fence ++ (l ++ '\n' :: (bb ++ (fence ++ r)))
            = (fence ++ (l ++ '\n' :: a.drop (p.length + l.length + 4)))
                ++ (fence ++ b) := by
          rw [← hbody]
          simp [List.append_assoc]
        have e4 : a.drop p.length ++ (fence ++ b)
            = (fence ++ (l ++ '\n' :: a.drop (p.length + l.length + 4)))
                ++ (fence ++ b) := by
          rw [← e1, e2, e3]
        exact List.append_cancel_right e4
      have hmo : matchOpener (a.drop p.length)
          = some (l, a.drop (p.length + l.length + 4)) := by
        rw [hap]
        exact matchOpener_of_shape l _ hwords
      have hfc : findClose (a.drop (p.length + l.length + 4)) = none := by
        apply findClose_none
        intro q hq
        have hq3 := tripleAt_le _ q hq
        have hblen : (a.drop (p.length + l.length + 4)).length
            = a.length - (p.length + l.length + 4) := List.length_drop ..
        have hqlt : q < bb.length := by omega
        have hqs := tripleAt_append_left _ (fence ++ b) q hq
        rw [hbody] at hqs
        exact hfst q hqlt hqs
      exact hasDangling_spec a h2 p.length l _ hmo hfc
termination_by a.length
decreasing_by
  simp only [List.length_drop]
  omega

/-- Witness for the amended C5: a complete fenced block followed by an
unterminated opener; the opener and everything after it end in the final
Text segment. -/
theorem c5_unterminated_witness :
    ∃ L t t0, t0 ++ t = "```a\nb\n``` ".toList ∧
      parseMessage ("```a\nb\n``` ".toList ++ (fence ++ "js\nfoo".toList))
        = L ++ [⟨PartType.text, t ++ (fence ++ "js\nfoo".toList), none⟩] :=
  (c5_unterminated ("```a\nb\n``` ".toList) ("js\nfoo".toList)
    (by decide) (by decide)).1

/-- Counterexample to Claim C5 as stated: the input
`"```x\n```js\nconst x = 1;"` contains a fence opener at offset 5 (three
backticks, the tag `js`, a newline) with no closing three-backtick
occurrence anywhere after it, yet `parseMessage` emits a Code segment —
the earlier unterminated opener `` ```x `` captures the designated
backticks as its closing delimiter — and the only Text segment is
`"js\nconst x = 1;"`, which does not contain the triple backtick. -/
theorem c5_counterexample :
    parseMessage ("```x\n```js\nconst x = 1;".toList)
        = [⟨PartType.code, [], some ("x".toList)⟩,
           ⟨PartType.text, "js\nconst x = 1;".toList, none⟩]
      ∧ matchOpener (("```x\n```js\nconst x = 1;".toList).drop 5)
          = some ("js".toList, "const x = 1;".toList)
      ∧ findClose (("```x\n```js\nconst x = 1;".toList).drop 6) = none := by
  refine ⟨?_, by decide, by decide⟩
  have hf1 : findFence ("```x\n```js\nconst x = 1;".toList)
      = some ([], "x".toList, [], "js\nconst x = 1;".toList) := by decide
  have hf2 : findFence ("js\nconst x = 1;".toList) = none := by decide
  rw [parseMessage_some _ _ _ _ _ hf1, parseMessage_none _ hf2]
  decide

/-- Claim C6: the mixed example parses into exactly Text–Code–Text with
the expected contents, and in general the matched block's body ends at the
first closing three-backtick occurrence after the opener (non-greedy). -/
theorem c6_nongreedy :
    parseMessage ("Hi\n```python\nprint(1)\n```\nBye".toList)
        = [⟨PartType.text, "Hi\n".toList, none⟩,
           ⟨PartType.code, "print(1)".toList, some ("python".toList)⟩,
           ⟨PartType.text, "\nBye".toList, none⟩]
      ∧ ∀ s p l b r : List Char, findFence s = some (p, l, b, r) →
          s = p ++ (fence ++ (l ++ '\n' :: (b ++ (fence ++ r))))
            ∧ ∀ j, j < b.length → ¬ tripleAt (b ++ (fence ++ r)) j := by
  constructor
  · exact parse_ex_mixed
  · intro s p l b r hff
    exact ⟨(findFence_eq s p l b r hff).1, findFence_first s p l b r hff⟩

/-- Witness for C6's general part at the concrete mixed input. -/
theorem c6_nongreedy_witness :
    "Hi\n```python\nprint(1)\n```\nBye".toList
      = "Hi\n".toList ++ (fence ++ ("python".toList
          ++ '\n' :: ("print(1)\n".toList ++ (fence ++ "\nBye".toList)))) :=
  (c6_nongreedy.2 _ _ _ _ _ (by decide)).1

/-- Claim C7: a matched fenced block captures no language tag exactly when
the character right after the opening backticks is the newline (a
non-word character); any other non-word character there (e.g. a space)
prevents the opener from matching at all, so no block arises from it; and
every match with an empty capture is emitted with language `"plaintext"`,
as in the concrete example. -/
theorem c7_language_default :
    (∀ s w body : List Char, matchOpener s = some (w, body) →
        (w = [] ↔ s.drop 3 = '\n' :: body))
      ∧ (∀ c : Char, ∀ t : List Char, isWordChar c = false → c ≠ '\n' →
          matchOpener (fence ++ c :: t) = none)
      ∧ (∀ s p l b r : List Char, findFence s = some (p, l, b, r) → l = [] →
          parseMessage s
            = (if p = [] then [] else [⟨PartType.text, p, none⟩]) ++
                ⟨PartType.code, trimList b, some ("plaintext".toList)⟩ ::
                  parseMessage r)
      ∧ parseMessage ("```\nhello\n```".toList)
          = [⟨PartType.code, "hello".toList, some ("plaintext".toList)⟩] := by
  refine ⟨?_, ?_, ?_, parse_ex_lang⟩
  · intro s w body hmo
    have hs := (matchOpener_eq s w body hmo).1
    have hdrop : s.drop 3 = w ++ '\n' :: body := by
      rw [hs, show (3 : Nat) = fence.length from rfl, List.drop_left]
    constructor
    · intro hw
      rw [hdrop, hw, List.nil_append]
    · intro hnl
      rw [hdrop] at hnl
      have := congrArg List.length hnl
      simp only [List.length_append, List.length_cons] at this
      have hw0 : w.length = 0 := by omega
      exact List.eq_nil_of_length_eq_zero hw0
  · intro c t hc hn
    exact matchOpener_nonword c t hc hn
  · intro s p l b r hff hl
    rw [parseMessage_some s p l b r hff, hl]
    rfl

/-- Witness for C7 at concrete opener shapes. -/
theorem c7_language_default_witness :
    (([] : List Char) = [] ↔ ("```\nhi\n```".toList).drop 3
        = '\n' :: "hi\n```".toList)
      ∧ matchOpener (fence ++ ' ' :: "x".toList) = none :=
  ⟨c7_language_default.1 ("```\nhi\n```".toList) [] ("hi\n```".toList)
      (by decide),
   c7_language_default.2.1 ' ' ("x".toList) (by decide) (by decide)⟩

/-- No two adjacent parts are both Text. -/
def noAdjacentText : List MessagePart → Bool
  | p :: q :: t =>
    !(p.type == PartType.text && q.type == PartType.text)
      && noAdjacentText (q :: t)
  | _ => true

theorem noAdjacentText_cons₂ (x y : MessagePart) (L : List MessagePart) :
    noAdjacentText (x :: y :: L)
      = (!(x.type == PartType.text && y.type == PartType.text)
          && noAdjacentText (y :: L)) := rfl

theorem noAdjacentText_cons_code (x : MessagePart) (L : List MessagePart)
    (hx : x.type = PartType.code) (hL : noAdjacentText L = true) :
    noAdjacentText (x :: L) = true := by
  cases L with
  | nil => rfl
  | cons y t =>
    rw [noAdjacentText_cons₂, hL, hx]
    rfl

theorem parse_noAdj (s : List Char) :
    noAdjacentText (parseMessage s) = true := by
  cases hm : findFence s with
  | none =>
    rw [parseMessage_none s hm]
    by_cases hs : s = []
    · rw [if_pos hs]
      rfl
    · rw [if_neg hs]
      rfl
  | some q =>
    obtain ⟨p, l, b, r⟩ := q
    rw [parseMessage_some s p l b r hm]
    have hrec := parse_noAdj r
    by_cases hp : p = []
    · rw [if_pos hp, List.nil_append]
      exact noAdjacentText_cons_code _ _ rfl hrec
    · rw [if_neg hp, List.singleton_append, noAdjacentText_cons₂]
      rw [noAdjacentText_cons_code _ _ rfl hrec]
      rfl
termination_by s.length
decreasing_by
  exact findFence_rest_length s p l b r hm

theorem parse_text_nonempty (s : List Char) :
    ∀ part ∈ parseMessage s, part.type = PartType.text →
      part.content ≠ [] := by
  cases hm : findFence s with
  | none =>
    rw [parseMessage_none s hm]
    by_cases hs : s = []
    · rw [if_pos hs]
      intro part hp
      cases hp
    · rw [if_neg hs]
      intro part hp htype
      rw [List.mem_singleton] at hp
      rw [hp]
      exact hs
  | some q =>
    obtain ⟨p, l, b, r⟩ := q
    rw [parseMessage_some s p l b r hm]
    intro part hp htype
    rw [List.mem_append, List.mem_cons] at hp
    rcases hp with hpre | hmid | hrest
    · by_cases hp0 : p = []
      · rw [if_pos hp0] at hpre
        cases hpre
      · rw [if_neg hp0, List.mem_singleton] at hpre
        rw [hpre]
        exact hp0
    · rw [hmid] at htype
      cases htype
    · exact parse_text_nonempty r part hrest htype
termination_by s.length
decreasing_by
  exact findFence_rest_length s p l b r hm

/-- Claim C8: for every input, `parseMessage` never emits two consecutive
Text segments and never emits an empty Text segment; the empty input gives
the empty sequence; and `"```\n\n```"` gives exactly one Code segment with
empty content and language `"plaintext"`. -/
theorem c8_segment_invariants :
    (∀ s : List Char, noAdjacentText (parseMessage s) = true)
      ∧ (∀ s : List Char, ∀ part ∈ parseMessage s,
          part.type = PartType.text → part.content ≠ [])
      ∧ parseMessage ([] : List Char) = []
      ∧ parseMessage ("```\n\n```".toList)
          = [⟨PartType.code, [], some ("plaintext".toList)⟩] :=
  ⟨parse_noAdj, parse_text_nonempty, parse_ex_empty, parse_ex_emptycode⟩

/-- Witness for C8 at a concrete input and Text segment. -/
theorem c8_segment_invariants_witness :
    noAdjacentText (parseMessage ("x".toList)) = true
      ∧ ("x".toList : List Char) ≠ [] :=
  ⟨c8_segment_invariants.1 ("x".toList),
   c8_segment_invariants.2.1 ("x".toList)
     ⟨PartType.text, "x".toList, none⟩
     (by rw [parse_ex_single]; exact List.mem_singleton_self _) rfl⟩

end NeuralCore
